import Mathlib

/-!
Shallow embedding of the RBM (Restricted Boltzmann Machine) notebook
`src/RBF_note.ipynb`: the class `RBM` with its constructor, `train`
(one-step contrastive divergence), `run_visible`, `run_hidden`,
`daydream`, and the logistic helper.

Modelling conventions:
* numpy 2-D float arrays become `Mat := List (List ℝ)`, row major;
* `np.dot` on 2-D arrays becomes the guarded `matMul`, returning `none`
  exactly when numpy would raise a shape error (inner dimensions must
  agree and the operands must be rectangular — numpy arrays always are);
* randomness is an explicit input: a uniform-draw table `u : ℕ → ℕ → ℝ`
  stands for one `np.random.rand(r, c)` call (`u i j` is the draw for
  cell `(i, j)`), families indexed by epoch or step stand for repeated
  calls, and the seeded generator of the constructor is an abstract
  PRNG family `prng : ℕ → ℕ → ℕ → ℝ` applied to the literal seed 1234;
* a Python exception propagating out of `train` is modelled by the
  Boolean component of the result: `(w, true)` means the call raised
  after the weights had value `w` (the weights field is only assigned
  at the end of an epoch, so epoch granularity is exact).
-/

/-- Row-major matrix of reals, embedding a numpy 2-D float array. -/
abbrev Mat : Type := List (List ℝ)

/-- Column count of a matrix, read off the first row (numpy arrays are
rectangular, so this is the shared row length). -/
def Mat.cols : Mat → ℕ
  | [] => 0
  | r :: _ => r.length

/-- `isRC m r c`: `m` is a rectangular `r × c` matrix. -/
def isRC (m : Mat) (r c : ℕ) : Prop :=
  m.length = r ∧ ∀ row ∈ m, row.length = c

instance (m : Mat) (r c : ℕ) : Decidable (isRC m r c) := by
  unfold isRC; infer_instance

/-- Dot product of two equally long vectors (`np.dot` on 1-D operands). -/
def dotRC (u v : List ℝ) : ℝ :=
  (List.zipWith (fun a b => a * b) u v).sum

/-- Matrix transpose (`.T` in numpy). -/
def transposeM (m : Mat) : Mat :=
  (List.range (Mat.cols m)).map (fun j => m.map (fun row => row.getD j 0))

/-- Unguarded matrix product: the value `np.dot(a, b)` has when the
shapes agree. -/
def matMulT (a b : Mat) : Mat :=
  a.map (fun row => (transposeM b).map (fun col => dotRC row col))

/-- `np.dot(a, b)` on 2-D arrays: raises (here `none`) unless the inner
dimensions agree on rectangular operands. -/
def matMul (a b : Mat) : Option Mat :=
  if (∀ row ∈ a, row.length = b.length) ∧ (∀ row ∈ b, row.length = Mat.cols b)
  then some (matMulT a b) else none

/-- The sigmoid `1 / (1 + exp (-x))`, the body of both `RBM._logistic`
and the later script-level `logistic`. -/
noncomputable def logistic (x : ℝ) : ℝ :=
  1 / (1 + Real.exp (-x))

/-- Elementwise logistic of a matrix. -/
noncomputable def matLogistic (m : Mat) : Mat :=
  m.map (fun row => row.map logistic)

/-- `m[:, 0] = v`: overwrite column 0 of every row. -/
def setCol0 (m : Mat) (v : ℝ) : Mat :=
  m.map (fun row => match row with
    | [] => []
    | _ :: t => v :: t)

/-- One Bernoulli threshold: `p > r` as a 0/1 float (numpy boolean
arrays are consumed as floats downstream). -/
noncomputable def sampleBit (p r : ℝ) : ℝ :=
  if r < p then 1 else 0

/-- Elementwise `probs > rand` on matrices of identical shape. -/
noncomputable def sampleGt (probs rand : Mat) : Mat :=
  List.zipWith (List.zipWith sampleBit) probs rand

/-- The `r × c` matrix of draws produced by one `np.random.rand(r, c)`
call, with `u` the underlying draw table. -/
def randMat (u : ℕ → ℕ → ℝ) (r c : ℕ) : Mat :=
  (List.range r).map (fun i => (List.range c).map (fun j => u i j))

/-- The vector of draws of one `np.random.rand(n)` call. -/
def randVec (u : ℕ → ℝ) (n : ℕ) : List ℝ :=
  (List.range n).map u

/-- `np.insert(data, 0, 1, axis = 1)`: prepend a constant bias column
of ones (a fresh array in numpy; the argument is not mutated). -/
def insertBias (m : Mat) : Mat :=
  m.map (fun row => 1 :: row)

/-- Elementwise matrix sum (`+` on equally shaped numpy arrays). -/
noncomputable def matAdd (a b : Mat) : Mat :=
  List.zipWith (List.zipWith (fun x y => x + y)) a b

/-- Elementwise matrix difference. -/
noncomputable def matSub (a b : Mat) : Mat :=
  List.zipWith (List.zipWith (fun x y => x - y)) a b

/-- Scalar times matrix. -/
noncomputable def smulMat (c : ℝ) (m : Mat) : Mat :=
  m.map (fun row => row.map (fun x => c * x))

/-- Matrix divided by a scalar. -/
noncomputable def matDivScalar (m : Mat) (c : ℝ) : Mat :=
  m.map (fun row => row.map (fun x => x / c))

/-- `np.dot(v, m)` for a 1-D `v` against a 2-D `m` (operand lengths
agree at every call site below, so no guard is needed). -/
def vecMat (v : List ℝ) (m : Mat) : List ℝ :=
  (transposeM m).map (fun col => dotRC v col)

/-- `x[0] = v` on a vector. -/
def setHead (v : List ℝ) (c : ℝ) : List ℝ :=
  match v with
  | [] => []
  | _ :: t => c :: t

/-- The scale `0.1 * sqrt(6 / (num_hidden + num_visible))` bounding the
uniform initialization range in `RBM.__init__`. -/
noncomputable def glorotBound (num_visible num_hidden : ℕ) : ℝ :=
  0.1 * Real.sqrt (6 / ((num_hidden : ℝ) + (num_visible : ℝ)))

/-- One draw of `np_rng.uniform(low, high)`: numpy computes
`low + (high - low) * s` from a standard uniform draw `s ∈ [0, 1)`. -/
noncomputable def uniformDraw (low high s : ℝ) : ℝ :=
  low + (high - low) * s

/-- The weight matrix built by `RBM.__init__` from standard uniform
draws `u i j`: an `nv × nh` block of `uniform(-b, b)` draws with
`b = 0.1 * sqrt(6/(nh+nv))`, then `np.insert` of a zero row 0
(axis 0) and a zero column 0 (axis 1). -/
noncomputable def initWeights (num_visible num_hidden : ℕ) (u : ℕ → ℕ → ℝ) : Mat :=
  let b := glorotBound num_visible num_hidden
  let w := (List.range num_visible).map (fun i =>
    (List.range num_hidden).map (fun j => uniformDraw (-b) b (u i j)))
  let w0 := List.replicate num_hidden (0 : ℝ) :: w
  w0.map (fun row => (0 : ℝ) :: row)

/-- The `RBM` class: its fields, as set by `__init__`. -/
structure RBM where
  num_visible : ℕ
  num_hidden : ℕ
  debug_print : Bool
  weights : Mat

/-- `RBM.__init__(num_visible, num_hidden)`: seeds a private generator
with the literal 1234 (`np.random.RandomState(1234)`) and never touches
the global stream `g`; `prng seed i j` is the `(i, j)` standard uniform
draw of the generator seeded with `seed`. -/
noncomputable def RBM.init (num_visible num_hidden : ℕ)
    (prng : ℕ → ℕ → ℕ → ℝ) (g : ℕ → ℝ) : RBM :=
  { num_visible := num_visible
    num_hidden := num_hidden
    debug_print := false
    weights := initWeights num_visible num_hidden (prng 1234) }

/-- Body of one epoch of `RBM.train`: the positive phase, the negative
phase and the weight update, with every `np.dot` guarded.  `none` means
the epoch raised before reaching the `self.weights +=` assignment (the
unused diagnostic `error` value is computed from already checked shapes
and cannot raise; `debug_print` is `False`, so nothing is printed). -/
noncomputable def trainEpoch (w dataB : Mat) (num_examples : ℕ) (learning_rate : ℝ)
    (u : ℕ → ℕ → ℝ) (num_hidden : ℕ) : Option Mat :=
  (matMul dataB w).bind (fun pos_hidden_activations =>
  let pos_hidden_probs := setCol0 (matLogistic pos_hidden_activations) 1
  let pos_hidden_states :=
    sampleGt pos_hidden_probs (randMat u num_examples (num_hidden + 1))
  (matMul (transposeM dataB) pos_hidden_probs).bind (fun pos_associations =>
  (matMul pos_hidden_states (transposeM w)).bind (fun neg_visible_activations =>
  let neg_visible_probs := setCol0 (matLogistic neg_visible_activations) 1
  (matMul neg_visible_probs w).bind (fun neg_hidden_activations =>
  let neg_hidden_probs := matLogistic neg_hidden_activations
  (matMul (transposeM neg_visible_probs) neg_hidden_probs).bind (fun neg_associations =>
  some (matAdd w (smulMat learning_rate
    (matDivScalar (matSub pos_associations neg_associations) num_examples))))))))

/-- The epoch loop of `RBM.train` with Python exception semantics: the
first failing epoch stops the loop and reports the weights as they were
when it raised (`true` = an exception propagated). -/
noncomputable def trainLoop (num_hidden : ℕ) (dataB : Mat) (num_examples : ℕ)
    (learning_rate : ℝ) (us : ℕ → ℕ → ℕ → ℝ) : ℕ → ℕ → Mat → Mat × Bool
  | _, 0, w => (w, false)
  | e, k + 1, w =>
    match trainEpoch w dataB num_examples learning_rate (us e) num_hidden with
    | none => (w, true)
    | some w1 => trainLoop num_hidden dataB num_examples learning_rate us (e + 1) k w1

/-- `RBM.train(data, max_epochs, learning_rate)`: inserts the bias
column into a fresh copy of `data`, runs the epoch loop, and stores the
final weights; the Boolean records whether an exception propagated.
The method itself returns `None`. -/
noncomputable def RBM.train (r : RBM) (data : Mat) (max_epochs : ℕ)
    (learning_rate : ℝ) (us : ℕ → ℕ → ℕ → ℝ) : RBM × Bool :=
  let num_examples := data.length
  let dataB := insertBias data
  let res := trainLoop r.num_hidden dataB num_examples learning_rate us 0 max_epochs r.weights
  ({ r with weights := res.1 }, res.2)

/-- `RBM.run_visible(data)`: one hidden pass, sampled against fresh
uniform draws, bias column stripped.  The `hidden_states` buffer of
ones is fully overwritten by the `[:, :]` assignment, so it is elided;
the commented-out bias clamp in the source is likewise absent. -/
noncomputable def RBM.run_visible (r : RBM) (data : Mat) (u : ℕ → ℕ → ℝ) : Option Mat :=
  let num_examples := data.length
  let dataB := insertBias data
  (matMul dataB r.weights).map (fun hidden_activations =>
    let hidden_probs := matLogistic hidden_activations
    let hidden_states :=
      sampleGt hidden_probs (randMat u num_examples (r.num_hidden + 1))
    hidden_states.map List.tail)

/-- `RBM.run_hidden(data)`: the symmetric visible pass through
`weights.T`, bias column stripped. -/
noncomputable def RBM.run_hidden (r : RBM) (data : Mat) (u : ℕ → ℕ → ℝ) : Option Mat :=
  let num_examples := data.length
  let dataB := insertBias data
  (matMul dataB (transposeM r.weights)).map (fun visible_activations =>
    let visible_probs := matLogistic visible_activations
    let visible_states :=
      sampleGt visible_probs (randMat u num_examples (r.num_visible + 1))
    visible_states.map List.tail)

/-- One Gibbs step of `RBM.daydream`: hidden probabilities from the
previous visible sample, binary hidden states with the bias entry
forced back to 1, then visible probabilities and binary visible states
(whose bias entry is NOT forced — it keeps its sampled value). -/
noncomputable def daydreamStep (w : Mat) (num_visible num_hidden : ℕ)
    (visible : List ℝ) (uh uv : ℕ → ℝ) : List ℝ :=
  let hidden_activations := vecMat visible w
  let hidden_probs := hidden_activations.map logistic
  let hidden_states :=
    setHead (List.zipWith sampleBit hidden_probs (randVec uh (num_hidden + 1))) 1
  let visible_activations := vecMat hidden_states (transposeM w)
  let visible_probs := visible_activations.map logistic
  List.zipWith sampleBit visible_probs (randVec uv (num_visible + 1))

/-- Rows `i, i+1, …` of the daydream chain (`k` of them), each produced
by one Gibbs step from its predecessor, with per-step draw vectors
`uh i` (hidden) and `uv i` (visible). -/
noncomputable def daydreamChain (w : Mat) (num_visible num_hidden : ℕ)
    (uh uv : ℕ → ℕ → ℝ) : ℕ → ℕ → List ℝ → Mat
  | _, 0, _ => []
  | i, k + 1, prev =>
    let next := daydreamStep w num_visible num_hidden prev (uh i) (uv i)
    next :: daydreamChain w num_visible num_hidden uh uv (i + 1) k next

/-- The full `samples` matrix of `RBM.daydream` (bias column still
present): row 0 is `1` followed by raw uniform draws (`samples[0,1:] =
np.random.rand(num_visible)`), and each later row is one Gibbs step
from its predecessor.  (`num_samples = 0` would make the source raise
an IndexError on the row-0 assignment; every claim assumes at least one
sample.) -/
noncomputable def daydreamFull (w : Mat) (num_visible num_hidden num_samples : ℕ)
    (u0 : ℕ → ℝ) (uh uv : ℕ → ℕ → ℝ) : Mat :=
  match num_samples with
  | 0 => []
  | k + 1 =>
    let sample0 : List ℝ := 1 :: (List.range num_visible).map u0
    sample0 :: daydreamChain w num_visible num_hidden uh uv 1 k sample0

/-- `RBM.daydream(num_samples)`: the chain above with the bias column
stripped (`samples[:, 1:]`). -/
noncomputable def RBM.daydream (r : RBM) (num_samples : ℕ)
    (u0 : ℕ → ℝ) (uh uv : ℕ → ℕ → ℝ) : Mat :=
  (daydreamFull r.weights r.num_visible r.num_hidden num_samples u0 uh uv).map List.tail

/-- Spec-side positive-phase hidden probabilities:
`logistic(data · weights)` with column 0 forced to 1. -/
noncomputable def pos_hidden_probsD (dataB w : Mat) : Mat :=
  setCol0 (matLogistic (matMulT dataB w)) 1

/-- Spec-side sampled hidden states: probabilities compared against the
epoch's uniform draw matrix. -/
noncomputable def pos_hidden_statesD (dataB w : Mat) (n nh : ℕ) (u : ℕ → ℕ → ℝ) : Mat :=
  sampleGt (pos_hidden_probsD dataB w) (randMat u n (nh + 1))

/-- Spec-side positive associations: `(bias-augmented data)ᵀ · pos_hidden_probs`. -/
noncomputable def pos_associationsD (dataB w : Mat) : Mat :=
  matMulT (transposeM dataB) (pos_hidden_probsD dataB w)

/-- Spec-side reconstructed visible probabilities:
`logistic(sampled_hidden_states · weightsᵀ)` with column 0 forced to 1. -/
noncomputable def neg_visible_probsD (dataB w : Mat) (n nh : ℕ) (u : ℕ → ℕ → ℝ) : Mat :=
  setCol0 (matLogistic (matMulT (pos_hidden_statesD dataB w n nh u) (transposeM w))) 1

/-- Spec-side negative-phase hidden probabilities:
`logistic(neg_visible_probs · weights)`, no bias forcing. -/
noncomputable def neg_hidden_probsD (dataB w : Mat) (n nh : ℕ) (u : ℕ → ℕ → ℝ) : Mat :=
  matLogistic (matMulT (neg_visible_probsD dataB w n nh u) w)

/-- Spec-side negative associations: `neg_visible_probsᵀ · neg_hidden_probs`. -/
noncomputable def neg_associationsD (dataB w : Mat) (n nh : ℕ) (u : ℕ → ℕ → ℝ) : Mat :=
  matMulT (transposeM (neg_visible_probsD dataB w n nh u)) (neg_hidden_probsD dataB w n nh u)

/-- Spec-side weight update of one CD-1 epoch:
`weights += learning_rate * (pos_associations - neg_associations) / num_examples`. -/
noncomputable def cdEpochSpec (dataB w : Mat) (n nh : ℕ) (lr : ℝ) (u : ℕ → ℕ → ℝ) : Mat :=
  matAdd w (smulMat lr (matDivScalar
    (matSub (pos_associationsD dataB w) (neg_associationsD dataB w n nh u)) n))

/-- Spec-side training: apply the CD-1 update once per epoch, epoch `e`
consuming the draw matrix `us e`. -/
noncomputable def cdTrainSpec (dataB : Mat) (n nh : ℕ) (lr : ℝ)
    (us : ℕ → ℕ → ℕ → ℝ) : ℕ → ℕ → Mat → Mat
  | _, 0, w => w
  | e, k + 1, w =>
    cdTrainSpec dataB n nh lr us (e + 1) k (cdEpochSpec dataB w n nh lr (us e))

theorem logistic_zero : logistic 0 = 1 / 2 := by
  rw [logistic, neg_zero, Real.exp_zero]
  norm_num

theorem cols_of_isRC {m : Mat} {r c : ℕ} (h : isRC m r c) (hr : 1 ≤ r) :
    Mat.cols m = c := by
  rcases m with _ | ⟨row, rest⟩
  · exact absurd (h.1 ▸ hr) (by simp)
  · exact h.2 row (List.mem_cons_self row rest)

theorem rect_of_isRC {m : Mat} {r c : ℕ} (h : isRC m r c) (hr : 1 ≤ r) :
    ∀ row ∈ m, row.length = Mat.cols m := by
  intro row hrow
  rw [cols_of_isRC h hr]
  exact h.2 row hrow

theorem length_transposeM (m : Mat) : (transposeM m).length = Mat.cols m := by
  simp [transposeM]

theorem mem_transposeM_length (m : Mat) :
    ∀ row ∈ transposeM m, row.length = m.length := by
  intro row hrow
  rcases List.mem_map.mp hrow with ⟨j, _, hj⟩
  simp [← hj]

theorem isRC_transposeM {m : Mat} {r c : ℕ} (h : isRC m r c) (hr : 1 ≤ r) :
    isRC (transposeM m) c r := by
  refine ⟨?_, ?_⟩
  · rw [length_transposeM, cols_of_isRC h hr]
  · intro row hrow
    rw [mem_transposeM_length m row hrow, h.1]

theorem isRC_matMulT {b : Mat} {k c : ℕ} (hb : isRC b k c) (hk : 1 ≤ k) (a : Mat) :
    isRC (matMulT a b) a.length c := by
  refine ⟨by simp [matMulT], ?_⟩
  intro row hrow
  rcases List.mem_map.mp hrow with ⟨arow, _, harow⟩
  rw [← harow]
  simp [length_transposeM, cols_of_isRC hb hk]

theorem matMul_eq_some {a b : Mat}
    (ha : ∀ row ∈ a, row.length = b.length)
    (hb : ∀ row ∈ b, row.length = Mat.cols b) :
    matMul a b = some (matMulT a b) := by
  rw [matMul, if_pos ⟨ha, hb⟩]

theorem isRC_matLogistic {m : Mat} {r c : ℕ} (h : isRC m r c) :
    isRC (matLogistic m) r c := by
  refine ⟨by simpa [matLogistic] using h.1, ?_⟩
  intro row hrow
  rcases List.mem_map.mp hrow with ⟨srow, hsrow, hmap⟩
  rw [← hmap]
  simpa using h.2 srow hsrow

theorem isRC_setCol0 {m : Mat} {r c : ℕ} (v : ℝ) (h : isRC m r c) :
    isRC (setCol0 m v) r c := by
  refine ⟨by simpa [setCol0] using h.1, ?_⟩
  intro row hrow
  rcases List.mem_map.mp hrow with ⟨srow, hsrow, hmap⟩
  have hs := h.2 srow hsrow
  rcases srow with _ | ⟨x, t⟩
  · simpa [← hmap] using hs
  · simpa [← hmap] using hs

theorem isRC_randMat (u : ℕ → ℕ → ℝ) (r c : ℕ) : isRC (randMat u r c) r c := by
  refine ⟨by simp [randMat], ?_⟩
  intro row hrow
  rcases List.mem_map.mp hrow with ⟨i, _, hi⟩
  simp [← hi]

theorem isRC_zipWith (f : ℝ → ℝ → ℝ) :
    ∀ {a b : Mat} {r c : ℕ}, isRC a r c → isRC b r c →
      isRC (List.zipWith (List.zipWith f) a b) r c := by
  intro a
  induction a with
  | nil =>
    intro b r c ha _
    exact ⟨by simpa using ha.1, by simp⟩
  | cons x xs ih =>
    intro b r c ha hb
    rcases b with _ | ⟨y, ys⟩
    · exact absurd (ha.1.trans hb.1.symm) (by simp)
    · rcases r with _ | r
      · exact absurd ha.1 (by simp)
      · have hxs : isRC xs r c := ⟨by simpa using ha.1, fun row hrow => ha.2 row (by simp [hrow])⟩
        have hys : isRC ys r c := ⟨by simpa using hb.1, fun row hrow => hb.2 row (by simp [hrow])⟩
        have hrec := ih hxs hys
        refine ⟨by simpa using hrec.1, ?_⟩
        intro row hrow
        rcases List.mem_cons.mp hrow with hhead | htail
        · have hx : x.length = c := ha.2 x (by simp)
          have hy : y.length = c := hb.2 y (by simp)
          simp [hhead, hx, hy]
        · exact hrec.2 row htail

theorem isRC_sampleGt {a b : Mat} {r c : ℕ} (ha : isRC a r c) (hb : isRC b r c) :
    isRC (sampleGt a b) r c :=
  isRC_zipWith sampleBit ha hb

theorem isRC_matAdd {a b : Mat} {r c : ℕ} (ha : isRC a r c) (hb : isRC b r c) :
    isRC (matAdd a b) r c :=
  isRC_zipWith (fun x y => x + y) ha hb

theorem isRC_matSub {a b : Mat} {r c : ℕ} (ha : isRC a r c) (hb : isRC b r c) :
    isRC (matSub a b) r c :=
  isRC_zipWith (fun x y => x - y) ha hb

theorem isRC_smulMat {m : Mat} {r c : ℕ} (s : ℝ) (h : isRC m r c) :
    isRC (smulMat s m) r c := by
  refine ⟨by simpa [smulMat] using h.1, ?_⟩
  intro row hrow
  rcases List.mem_map.mp hrow with ⟨srow, hsrow, hmap⟩
  rw [← hmap]
  simpa using h.2 srow hsrow

theorem isRC_matDivScalar {m : Mat} {r c : ℕ} (s : ℝ) (h : isRC m r c) :
    isRC (matDivScalar m s) r c := by
  refine ⟨by simpa [matDivScalar] using h.1, ?_⟩
  intro row hrow
  rcases List.mem_map.mp hrow with ⟨srow, hsrow, hmap⟩
  rw [← hmap]
  simpa using h.2 srow hsrow

theorem isRC_insertBias {m : Mat} {r c : ℕ} (h : isRC m r c) :
    isRC (insertBias m) r (c + 1) := by
  refine ⟨by simpa [insertBias] using h.1, ?_⟩
  intro row hrow
  rcases List.mem_map.mp hrow with ⟨srow, hsrow, hmap⟩
  rw [← hmap]
  simpa using h.2 srow hsrow

theorem isRC_pos_hidden_probsD {nv nh n : ℕ} {dataB w : Mat}
    (hd : isRC dataB n (nv + 1)) (hw : isRC w (nv + 1) (nh + 1)) :
    isRC (pos_hidden_probsD dataB w) n (nh + 1) := by
  have h1 := isRC_matMulT hw (Nat.le_add_left 1 nv) dataB
  rw [hd.1] at h1
  exact isRC_setCol0 1 (isRC_matLogistic h1)

theorem isRC_pos_hidden_statesD {nv nh n : ℕ} {dataB w : Mat}
    (hd : isRC dataB n (nv + 1)) (hw : isRC w (nv + 1) (nh + 1)) (u : ℕ → ℕ → ℝ) :
    isRC (pos_hidden_statesD dataB w n nh u) n (nh + 1) :=
  isRC_sampleGt (isRC_pos_hidden_probsD hd hw) (isRC_randMat u n (nh + 1))

theorem isRC_pos_associationsD {nv nh n : ℕ} {dataB w : Mat}
    (hd : isRC dataB n (nv + 1)) (hn : 1 ≤ n) (hw : isRC w (nv + 1) (nh + 1)) :
    isRC (pos_associationsD dataB w) (nv + 1) (nh + 1) := by
  have h1 := isRC_matMulT (isRC_pos_hidden_probsD hd hw) hn (transposeM dataB)
  rw [length_transposeM, cols_of_isRC hd hn] at h1
  exact h1

theorem isRC_neg_visible_probsD {nv nh n : ℕ} {dataB w : Mat}
    (hd : isRC dataB n (nv + 1)) (hw : isRC w (nv + 1) (nh + 1)) (u : ℕ → ℕ → ℝ) :
    isRC (neg_visible_probsD dataB w n nh u) n (nv + 1) := by
  have h1 := isRC_matMulT (isRC_transposeM hw (Nat.le_add_left 1 nv))
    (Nat.le_add_left 1 nh) (pos_hidden_statesD dataB w n nh u)
  rw [(isRC_pos_hidden_statesD hd hw u).1] at h1
  exact isRC_setCol0 1 (isRC_matLogistic h1)

theorem isRC_neg_hidden_probsD {nv nh n : ℕ} {dataB w : Mat}
    (hd : isRC dataB n (nv + 1)) (hw : isRC w (nv + 1) (nh + 1)) (u : ℕ → ℕ → ℝ) :
    isRC (neg_hidden_probsD dataB w n nh u) n (nh + 1) := by
  have h1 := isRC_matMulT hw (Nat.le_add_left 1 nv) (neg_visible_probsD dataB w n nh u)
  rw [(isRC_neg_visible_probsD hd hw u).1] at h1
  exact isRC_matLogistic h1

theorem isRC_neg_associationsD {nv nh n : ℕ} {dataB w : Mat}
    (hd : isRC dataB n (nv + 1)) (hn : 1 ≤ n) (hw : isRC w (nv + 1) (nh + 1))
    (u : ℕ → ℕ → ℝ) :
    isRC (neg_associationsD dataB w n nh u) (nv + 1) (nh + 1) := by
  have h1 := isRC_matMulT (isRC_neg_hidden_probsD hd hw u) hn
    (transposeM (neg_visible_probsD dataB w n nh u))
  rw [length_transposeM, cols_of_isRC (isRC_neg_visible_probsD hd hw u) hn] at h1
  exact h1

theorem isRC_cdEpochSpec {nv nh n : ℕ} {dataB w : Mat}
    (hd : isRC dataB n (nv + 1)) (hn : 1 ≤ n) (hw : isRC w (nv + 1) (nh + 1))
    (lr : ℝ) (u : ℕ → ℕ → ℝ) :
    isRC (cdEpochSpec dataB w n nh lr u) (nv + 1) (nh + 1) :=
  isRC_matAdd hw (isRC_smulMat lr (isRC_matDivScalar _
    (isRC_matSub (isRC_pos_associationsD hd hn hw) (isRC_neg_associationsD hd hn hw u))))

theorem trainEpoch_eq {nv nh n : ℕ} {dataB w : Mat} (lr : ℝ) (u : ℕ → ℕ → ℝ)
    (hd : isRC dataB n (nv + 1)) (hn : 1 ≤ n) (hw : isRC w (nv + 1) (nh + 1)) :
    trainEpoch w dataB n lr u nh = some (cdEpochSpec dataB w n nh lr u) := by
  have hv1 : 1 ≤ nv + 1 := Nat.le_add_left 1 nv
  have hh1 : 1 ≤ nh + 1 := Nat.le_add_left 1 nh
  have hP := isRC_pos_hidden_probsD hd hw
  have hS := isRC_pos_hidden_statesD hd hw u
  have hNV := isRC_neg_visible_probsD hd hw u
  have hNH := isRC_neg_hidden_probsD hd hw u
  have e1 : matMul dataB w = some (matMulT dataB w) :=
    matMul_eq_some (fun row hr => by rw [hd.2 row hr, hw.1]) (rect_of_isRC hw hv1)
  have e2 : matMul (transposeM dataB) (pos_hidden_probsD dataB w) =
      some (matMulT (transposeM dataB) (pos_hidden_probsD dataB w)) :=
    matMul_eq_some
      (fun row hr => by rw [mem_transposeM_length dataB row hr, hd.1, hP.1])
      (rect_of_isRC hP hn)
  have e3 : matMul (pos_hidden_statesD dataB w n nh u) (transposeM w) =
      some (matMulT (pos_hidden_statesD dataB w n nh u) (transposeM w)) :=
    matMul_eq_some
      (fun row hr => by rw [hS.2 row hr, length_transposeM, cols_of_isRC hw hv1])
      (rect_of_isRC (isRC_transposeM hw hv1) hh1)
  have e4 : matMul (neg_visible_probsD dataB w n nh u) w =
      some (matMulT (neg_visible_probsD dataB w n nh u) w) :=
    matMul_eq_some (fun row hr => by rw [hNV.2 row hr, hw.1]) (rect_of_isRC hw hv1)
  have e5 : matMul (transposeM (neg_visible_probsD dataB w n nh u))
        (neg_hidden_probsD dataB w n nh u) =
      some (matMulT (transposeM (neg_visible_probsD dataB w n nh u))
        (neg_hidden_probsD dataB w n nh u)) :=
    matMul_eq_some
      (fun row hr => by
        rw [mem_transposeM_length (neg_visible_probsD dataB w n nh u) row hr, hNV.1, hNH.1])
      (rect_of_isRC hNH hn)
  simp only [pos_hidden_probsD, pos_hidden_statesD, neg_visible_probsD,
    neg_hidden_probsD] at e2 e3 e4 e5
  simp only [trainEpoch, cdEpochSpec, pos_associationsD, neg_associationsD,
    neg_hidden_probsD, neg_visible_probsD, pos_hidden_statesD, pos_hidden_probsD,
    e1, e2, e3, e4, e5, Option.some_bind]

theorem trainLoop_eq {nv nh n : ℕ} {dataB : Mat} (lr : ℝ) (us : ℕ → ℕ → ℕ → ℝ)
    (hd : isRC dataB n (nv + 1)) (hn : 1 ≤ n) (k : ℕ) :
    ∀ (e : ℕ) (w : Mat), isRC w (nv + 1) (nh + 1) →
      trainLoop nh dataB n lr us e k w = (cdTrainSpec dataB n nh lr us e k w, false) ∧
      isRC (cdTrainSpec dataB n nh lr us e k w) (nv + 1) (nh + 1) := by
  induction k with
  | zero => exact fun e w hw => ⟨rfl, hw⟩
  | succ k ih =>
    intro e w hw
    have hstep := trainEpoch_eq lr (us e) hd hn hw
    have hshape := isRC_cdEpochSpec hd hn hw lr (us e)
    have hrec := ih (e + 1) (cdEpochSpec dataB w n nh lr (us e)) hshape
    constructor
    · rw [trainLoop, hstep, cdTrainSpec]
      exact hrec.1
    · rw [cdTrainSpec]
      exact hrec.2

theorem train_eq {nv nh n E : ℕ} {w data : Mat} (dbg : Bool) (lr : ℝ)
    (us : ℕ → ℕ → ℕ → ℝ)
    (hd : isRC data n nv) (hn : 1 ≤ n) (hw : isRC w (nv + 1) (nh + 1)) :
    RBM.train ⟨nv, nh, dbg, w⟩ data E lr us =
      (⟨nv, nh, dbg, cdTrainSpec (insertBias data) n nh lr us 0 E w⟩, false) ∧
    isRC (cdTrainSpec (insertBias data) n nh lr us 0 E w) (nv + 1) (nh + 1) := by
  have hdB : isRC (insertBias data) n (nv + 1) := isRC_insertBias hd
  have h := trainLoop_eq lr us hdB hn E 0 w hw
  refine ⟨?_, h.2⟩
  simp only [RBM.train, hd.1, h.1]

theorem zip_add_smul_zero : ∀ (r s : List ℝ), r.length = s.length →
    List.zipWith (fun x y => x + y) r (List.map (fun x => (0 : ℝ) * x) s) = r := by
  intro r
  induction r with
  | nil => intro s _; simp
  | cons a t ih =>
    intro s h
    rcases s with _ | ⟨b, u⟩
    · simp at h
    · have ht := ih u (by simpa using h)
      simp only [List.map_cons, List.zipWith_cons_cons, ht]
      norm_num

theorem matAdd_smulMat_zero :
    ∀ {w m : Mat} {r c : ℕ}, isRC w r c → isRC m r c → matAdd w (smulMat 0 m) = w := by
  intro w
  induction w with
  | nil => intro m r c _ _; simp [matAdd]
  | cons x xs ih =>
    intro m r c hw hm
    rcases m with _ | ⟨y, ys⟩
    · exact absurd (hw.1.trans hm.1.symm) (by simp)
    · rcases r with _ | r
      · exact absurd hw.1 (by simp)
      · have hxs : isRC xs r c := ⟨by simpa using hw.1, fun row hrow => hw.2 row (by simp [hrow])⟩
        have hys : isRC ys r c := ⟨by simpa using hm.1, fun row hrow => hm.2 row (by simp [hrow])⟩
        have hx : x.length = c := hw.2 x (by simp)
        have hy : y.length = c := hm.2 y (by simp)
        simp only [matAdd, smulMat, List.map_cons, List.zipWith_cons_cons]
        rw [zip_add_smul_zero x y (hx.trans hy.symm)]
        have := ih hxs hys
        simp only [matAdd, smulMat] at this
        rw [this]

theorem cdEpochSpec_zero {nv nh n : ℕ} {dataB w : Mat}
    (hd : isRC dataB n (nv + 1)) (hn : 1 ≤ n) (hw : isRC w (nv + 1) (nh + 1))
    (u : ℕ → ℕ → ℝ) :
    cdEpochSpec dataB w n nh 0 u = w := by
  have hX : isRC (matDivScalar
      (matSub (pos_associationsD dataB w) (neg_associationsD dataB w n nh u)) n)
      (nv + 1) (nh + 1) :=
    isRC_matDivScalar _
      (isRC_matSub (isRC_pos_associationsD hd hn hw) (isRC_neg_associationsD hd hn hw u))
  rw [cdEpochSpec]
  exact matAdd_smulMat_zero hw hX

theorem cdTrainSpec_zero {nv nh n : ℕ} {dataB : Mat}
    (hd : isRC dataB n (nv + 1)) (hn : 1 ≤ n) (us : ℕ → ℕ → ℕ → ℝ) (k : ℕ) :
    ∀ (e : ℕ) (w : Mat), isRC w (nv + 1) (nh + 1) →
      cdTrainSpec dataB n nh 0 us e k w = w := by
  induction k with
  | zero => exact fun e w _ => rfl
  | succ k ih =>
    intro e w hw
    rw [cdTrainSpec, cdEpochSpec_zero hd hn hw (us e)]
    exact ih (e + 1) w hw

theorem sampleBit_cases (p r : ℝ) : sampleBit p r = 0 ∨ sampleBit p r = 1 := by
  rw [sampleBit]
  split
  · exact Or.inr rfl
  · exact Or.inl rfl

theorem zipWith_sampleBit_bits :
    ∀ (p q : List ℝ), ∀ x ∈ List.zipWith sampleBit p q, x = 0 ∨ x = 1 := by
  intro p
  induction p with
  | nil => intro q x hx; simp at hx
  | cons a t ih =>
    intro q x hx
    rcases q with _ | ⟨b, s⟩
    · simp at hx
    · rcases List.mem_cons.mp (by simpa using hx) with h | h
      · rw [h]; exact sampleBit_cases a b
      · exact ih s x h

theorem sampleGt_bits :
    ∀ (a b : Mat), ∀ row ∈ sampleGt a b, ∀ x ∈ row, x = 0 ∨ x = 1 := by
  intro a
  induction a with
  | nil => intro b row hrow; simp [sampleGt] at hrow
  | cons p ps ih =>
    intro b row hrow
    rcases b with _ | ⟨q, qs⟩
    · simp [sampleGt] at hrow
    · rcases List.mem_cons.mp (by simpa [sampleGt] using hrow) with h | h
      · rw [h]; exact zipWith_sampleBit_bits p q
      · exact ih qs row h

theorem isRC_map_tail {m : Mat} {r c : ℕ} (h : isRC m r (c + 1)) :
    isRC (m.map List.tail) r c := by
  refine ⟨by simpa using h.1, ?_⟩
  intro row hrow
  rcases List.mem_map.mp hrow with ⟨srow, hsrow, hmap⟩
  rw [← hmap, List.length_tail, h.2 srow hsrow]
  omega

theorem run_visible_eq {nv nh n : ℕ} {w data : Mat} (dbg : Bool) (u : ℕ → ℕ → ℝ)
    (hd : isRC data n nv) (hw : isRC w (nv + 1) (nh + 1)) :
    RBM.run_visible ⟨nv, nh, dbg, w⟩ data u =
      some ((sampleGt (matLogistic (matMulT (insertBias data) w))
        (randMat u n (nh + 1))).map List.tail) := by
  have hdB := isRC_insertBias hd
  have e1 : matMul (insertBias data) w = some (matMulT (insertBias data) w) :=
    matMul_eq_some (fun row hr => by rw [hdB.2 row hr, hw.1])
      (rect_of_isRC hw (Nat.le_add_left 1 nv))
  simp only [RBM.run_visible, hd.1, e1, Option.map_some']

theorem run_hidden_eq {nv nh n : ℕ} {w data : Mat} (dbg : Bool) (u : ℕ → ℕ → ℝ)
    (hd : isRC data n nh) (hw : isRC w (nv + 1) (nh + 1)) :
    RBM.run_hidden ⟨nv, nh, dbg, w⟩ data u =
      some ((sampleGt (matLogistic (matMulT (insertBias data) (transposeM w)))
        (randMat u n (nv + 1))).map List.tail) := by
  have hdB := isRC_insertBias hd
  have hwT := isRC_transposeM hw (Nat.le_add_left 1 nv)
  have e1 : matMul (insertBias data) (transposeM w) =
      some (matMulT (insertBias data) (transposeM w)) :=
    matMul_eq_some (fun row hr => by rw [hdB.2 row hr, hwT.1])
      (rect_of_isRC hwT (Nat.le_add_left 1 nh))
  simp only [RBM.run_hidden, hd.1, e1, Option.map_some']

theorem length_vecMat (v : List ℝ) (m : Mat) : (vecMat v m).length = Mat.cols m := by
  simp [vecMat, length_transposeM]

theorem length_daydreamStep {nv nh : ℕ} {w : Mat} (hw : isRC w (nv + 1) (nh + 1))
    (prev : List ℝ) (uh uv : ℕ → ℝ) :
    (daydreamStep w nv nh prev uh uv).length = nv + 1 := by
  have hcT : Mat.cols (transposeM w) = nv + 1 :=
    cols_of_isRC (isRC_transposeM hw (Nat.le_add_left 1 nv)) (Nat.le_add_left 1 nh)
  simp [daydreamStep, List.length_zipWith, length_vecMat, randVec, hcT]

theorem daydreamStep_bits {nv nh : ℕ} (w : Mat) (prev : List ℝ) (uh uv : ℕ → ℝ) :
    ∀ x ∈ daydreamStep w nv nh prev uh uv, x = 0 ∨ x = 1 := by
  intro x hx
  exact zipWith_sampleBit_bits _ _ x hx

theorem daydreamChain_facts {nv nh : ℕ} {w : Mat} (hw : isRC w (nv + 1) (nh + 1))
    (uh uv : ℕ → ℕ → ℝ) (k : ℕ) :
    ∀ (i : ℕ) (prev : List ℝ),
      (daydreamChain w nv nh uh uv i k prev).length = k ∧
      ∀ row ∈ daydreamChain w nv nh uh uv i k prev,
        row.length = nv + 1 ∧ ∀ x ∈ row, x = 0 ∨ x = 1 := by
  induction k with
  | zero => intro i prev; exact ⟨rfl, by simp [daydreamChain]⟩
  | succ k ih =>
    intro i prev
    have hrec := ih (i + 1) (daydreamStep w nv nh prev (uh i) (uv i))
    constructor
    · simp [daydreamChain, hrec.1]
    · intro row hrow
      rcases List.mem_cons.mp (by simpa [daydreamChain] using hrow) with h | h
      · rw [h]
        exact ⟨length_daydreamStep hw prev (uh i) (uv i), daydreamStep_bits w prev (uh i) (uv i)⟩
      · exact hrec.2 row h

theorem glorotBound_pos {nv nh : ℕ} (hnv : 1 ≤ nv) : 0 < glorotBound nv nh := by
  have h1 : (1 : ℝ) ≤ (nv : ℝ) := by exact_mod_cast hnv
  have h0 : (0 : ℝ) ≤ (nh : ℝ) := Nat.cast_nonneg nh
  have hsum : (0 : ℝ) < (nh : ℝ) + (nv : ℝ) := by linarith
  have harg : (0 : ℝ) < 6 / ((nh : ℝ) + (nv : ℝ)) := by positivity
  rw [glorotBound]
  have := Real.sqrt_pos.mpr harg
  norm_num
  linarith

theorem uniformDraw_mem {b s : ℝ} (hb : 0 < b) (hs0 : 0 ≤ s) (hs1 : s < 1) :
    -b ≤ uniformDraw (-b) b s ∧ uniformDraw (-b) b s < b := by
  rw [uniformDraw]
  constructor
  · nlinarith
  · nlinarith

theorem getD_map_range {α : Type _} (n i : ℕ) (hi : i < n) (f : ℕ → α) (d : α) :
    ((List.range n).map f).getD i d = f i := by
  rw [List.getD_eq_getElem _ _ (by simpa using hi)]
  simp

theorem initWeights_eq (nv nh : ℕ) (u : ℕ → ℕ → ℝ) :
    initWeights nv nh u =
      ((0 : ℝ) :: List.replicate nh (0 : ℝ)) ::
        (List.range nv).map (fun i => (0 : ℝ) ::
          (List.range nh).map (fun j =>
            uniformDraw (-(glorotBound nv nh)) (glorotBound nv nh) (u i j))) := by
  simp [initWeights, List.map_map, Function.comp]

theorem map_tail_bits {m : Mat} (hm : ∀ row ∈ m, ∀ x ∈ row, x = 0 ∨ x = 1) :
    ∀ row ∈ m.map List.tail, ∀ x ∈ row, x = 0 ∨ x = 1 := by
  intro row hrow x hx
  rcases List.mem_map.mp hrow with ⟨srow, hs, hmap⟩
  exact hm srow hs x (List.mem_of_mem_tail (hmap ▸ hx))

theorem matMul_eq_none {a b : Mat} {row : List ℝ} (hrow : row ∈ a)
    (hlen : row.length ≠ b.length) : matMul a b = none := by
  rw [matMul, if_neg]
  intro hcond
  exact hlen (hcond.1 row hrow)

/-- C10: construction is deterministic: the constructor draws only from
its own generator seeded with the literal 1234, so the built machine
does not depend on the ambient global random stream, and any two
machines built with the same dimensions (and the same PRNG semantics)
have identical weight matrices. -/
theorem init_deterministic (num_visible num_hidden : ℕ)
    (prng : ℕ → ℕ → ℕ → ℝ) (g1 g2 : ℕ → ℝ) :
    RBM.init num_visible num_hidden prng g1 = RBM.init num_visible num_hidden prng g2 ∧
    (RBM.init num_visible num_hidden prng g1).weights =
      initWeights num_visible num_hidden (prng 1234) :=
  ⟨rfl, rfl⟩

/-- C8: the logistic function satisfies `logistic 0 = 1/2`, is strictly
monotonically increasing, and takes values strictly between 0 and 1 at
every real input. -/
theorem logistic_props :
    logistic 0 = 1 / 2 ∧ StrictMono logistic ∧
      ∀ x : ℝ, 0 < logistic x ∧ logistic x < 1 := by
  refine ⟨logistic_zero, ?_, ?_⟩
  · intro a b hab
    have hea := Real.exp_pos (-a)
    have heb := Real.exp_pos (-b)
    have hlt : Real.exp (-b) < Real.exp (-a) := Real.exp_lt_exp.mpr (by linarith)
    rw [logistic, logistic, div_lt_div_iff₀ (by linarith) (by linarith)]
    linarith
  · intro x
    have he := Real.exp_pos (-x)
    constructor
    · rw [logistic]
      positivity
    · rw [logistic, div_lt_one (by linarith)]
      linarith

/-- C2: for positive `num_visible`, `num_hidden` and standard uniform
draws, the constructed weight matrix has shape
`(num_visible+1) × (num_hidden+1)`, entry `[0,0]` equal to 0, all of
row 0 and column 0 zero, and every remaining entry is the uniform draw
`uniform(-b, b)` with `b = 0.1 * sqrt(6/(num_hidden+num_visible))`, in
particular lying in the symmetric range `[-b, b)`. -/
theorem initWeights_spec (nv nh : ℕ) (u : ℕ → ℕ → ℝ)
    (hnv : 1 ≤ nv) (hnh : 1 ≤ nh) (hu : ∀ i j, 0 ≤ u i j ∧ u i j < 1) :
    isRC (initWeights nv nh u) (nv + 1) (nh + 1) ∧
    (initWeights nv nh u).headI = List.replicate (nh + 1) (0 : ℝ) ∧
    (∀ row ∈ initWeights nv nh u, row.headI = 0) ∧
    (initWeights nv nh u).headI.headI = 0 ∧
    (∀ i < nv, ∀ j < nh,
      ((initWeights nv nh u).getD (i + 1) []).getD (j + 1) 0 =
        uniformDraw (-(glorotBound nv nh)) (glorotBound nv nh) (u i j)) ∧
    (∀ row ∈ (initWeights nv nh u).tail, ∀ x ∈ row.tail,
      -(glorotBound nv nh) ≤ x ∧ x < glorotBound nv nh) := by
  have hb := @glorotBound_pos nv nh hnv
  rw [initWeights_eq]
  refine ⟨⟨by simp, ?_⟩, ?_, ?_, ?_, ?_, ?_⟩
  · intro row hrow
    rcases List.mem_cons.mp hrow with h | h
    · simp [h]
    · rcases List.mem_map.mp h with ⟨i, _, hi⟩
      simp [← hi]
  · simp [List.replicate_succ]
  · intro row hrow
    rcases List.mem_cons.mp hrow with h | h
    · simp [h]
    · rcases List.mem_map.mp h with ⟨i, _, hi⟩
      simp [← hi]
  · simp
  · intro i hi j hj
    rw [List.getD_cons_succ, getD_map_range nv i hi, List.getD_cons_succ,
      getD_map_range nh j hj]
  · intro row hrow x hx
    rw [List.tail_cons] at hrow
    rcases List.mem_map.mp hrow with ⟨i, _, hi⟩
    rw [← hi, List.tail_cons] at hx
    rcases List.mem_map.mp hx with ⟨j, _, hj⟩
    rw [← hj]
    exact uniformDraw_mem hb (hu i j).1 (hu i j).2

/-- C1: with well-shaped inputs, `train` performs exactly `max_epochs`
CD-1 epochs (`cdTrainSpec`), and each epoch updates the weights by
exactly `weights += learning_rate * (pos_associations -
neg_associations) / num_examples` with the positive and negative
phases computed as in the claim (`cdEpochSpec` and its constituent
definitions `pos_hidden_probsD`, `pos_associationsD`,
`neg_visible_probsD`, `neg_hidden_probsD`, `neg_associationsD`). -/
theorem train_cd_update (nv nh n E : ℕ) (dbg : Bool) (lr : ℝ) (w data : Mat)
    (us : ℕ → ℕ → ℕ → ℝ) (hd : isRC data n nv) (hn : 1 ≤ n)
    (hw : isRC w (nv + 1) (nh + 1)) :
    RBM.train ⟨nv, nh, dbg, w⟩ data E lr us =
      (⟨nv, nh, dbg, cdTrainSpec (insertBias data) n nh lr us 0 E w⟩, false) ∧
    ∀ (wcur : Mat) (e : ℕ), isRC wcur (nv + 1) (nh + 1) →
      trainEpoch wcur (insertBias data) n lr (us e) nh =
        some (cdEpochSpec (insertBias data) wcur n nh lr (us e)) :=
  ⟨(train_eq dbg lr us hd hn hw).1,
   fun _ e hw2 => trainEpoch_eq lr (us e) (isRC_insertBias hd) hn hw2⟩

theorem train_cd_update_witness :
    RBM.train ⟨1, 1, false, [[0, 0], [0, 0]]⟩ [[1]] 1 1 (fun _ _ _ => 1 / 2) =
      (⟨1, 1, false,
        cdTrainSpec (insertBias [[1]]) 1 1 1 (fun _ _ _ => 1 / 2) 0 1 [[0, 0], [0, 0]]⟩,
        false) ∧
    ∀ (wcur : Mat) (e : ℕ), isRC wcur (1 + 1) (1 + 1) →
      trainEpoch wcur (insertBias [[1]]) 1 1 ((fun _ _ _ => (1 : ℝ) / 2) e) 1 =
        some (cdEpochSpec (insertBias [[1]]) wcur 1 1 1 ((fun _ _ _ => (1 : ℝ) / 2) e)) :=
  train_cd_update 1 1 1 1 false 1 [[0, 0], [0, 0]] [[1]] (fun _ _ _ => 1 / 2)
    (by decide) (by decide) (by decide)

/-- C3: on a data matrix whose rows have `num_visible` entries,
`run_visible` returns (without raising) a `num_examples × num_hidden`
matrix of 0/1 entries; symmetrically, on rows of `num_hidden` entries,
`run_hidden` returns a `num_examples × num_visible` matrix of 0/1
entries — in both cases the internal bias column is stripped. -/
theorem run_visible_run_hidden_spec (nv nh : ℕ) (w dv dh : Mat)
    (uv uh : ℕ → ℕ → ℝ) (hw : isRC w (nv + 1) (nh + 1))
    (hdv : ∀ row ∈ dv, row.length = nv) (hdh : ∀ row ∈ dh, row.length = nh) :
    (∃ out, RBM.run_visible ⟨nv, nh, false, w⟩ dv uv = some out ∧
      out.length = dv.length ∧ (∀ row ∈ out, row.length = nh) ∧
      ∀ row ∈ out, ∀ x ∈ row, x = 0 ∨ x = 1) ∧
    (∃ out, RBM.run_hidden ⟨nv, nh, false, w⟩ dh uh = some out ∧
      out.length = dh.length ∧ (∀ row ∈ out, row.length = nv) ∧
      ∀ row ∈ out, ∀ x ∈ row, x = 0 ∨ x = 1) := by
  constructor
  · have hd : isRC dv dv.length nv := ⟨rfl, hdv⟩
    have hprobs : isRC (matLogistic (matMulT (insertBias dv) w)) dv.length (nh + 1) := by
      have h1 := isRC_matMulT hw (Nat.le_add_left 1 nv) (insertBias dv)
      rw [(isRC_insertBias hd).1] at h1
      exact isRC_matLogistic h1
    have hs : isRC (sampleGt (matLogistic (matMulT (insertBias dv) w))
        (randMat uv dv.length (nh + 1))) dv.length (nh + 1) :=
      isRC_sampleGt hprobs (isRC_randMat uv dv.length (nh + 1))
    have hout := isRC_map_tail hs
    exact ⟨_, run_visible_eq false uv hd hw, hout.1, hout.2,
      map_tail_bits (sampleGt_bits _ _)⟩
  · have hd : isRC dh dh.length nh := ⟨rfl, hdh⟩
    have hwT := isRC_transposeM hw (Nat.le_add_left 1 nv)
    have hprobs : isRC (matLogistic (matMulT (insertBias dh) (transposeM w)))
        dh.length (nv + 1) := by
      have h1 := isRC_matMulT hwT (Nat.le_add_left 1 nh) (insertBias dh)
      rw [(isRC_insertBias hd).1] at h1
      exact isRC_matLogistic h1
    have hs : isRC (sampleGt (matLogistic (matMulT (insertBias dh) (transposeM w)))
        (randMat uh dh.length (nv + 1))) dh.length (nv + 1) :=
      isRC_sampleGt hprobs (isRC_randMat uh dh.length (nv + 1))
    have hout := isRC_map_tail hs
    exact ⟨_, run_hidden_eq false uh hd hw, hout.1, hout.2,
      map_tail_bits (sampleGt_bits _ _)⟩

theorem run_visible_run_hidden_witness :
    (∃ out, RBM.run_visible ⟨1, 1, false, [[0, 0], [0, 0]]⟩ [[0]] (fun _ _ => 1 / 2) =
        some out ∧
      out.length = ([[0]] : Mat).length ∧ (∀ row ∈ out, row.length = 1) ∧
      ∀ row ∈ out, ∀ x ∈ row, x = 0 ∨ x = 1) ∧
    (∃ out, RBM.run_hidden ⟨1, 1, false, [[0, 0], [0, 0]]⟩ [[1]] (fun _ _ => 1 / 2) =
        some out ∧
      out.length = ([[1]] : Mat).length ∧ (∀ row ∈ out, row.length = 1) ∧
      ∀ row ∈ out, ∀ x ∈ row, x = 0 ∨ x = 1) :=
  run_visible_run_hidden_spec 1 1 [[0, 0], [0, 0]] [[0]] [[1]]
    (fun _ _ => 1 / 2) (fun _ _ => 1 / 2) (by decide) (by decide) (by decide)

/-- C4: `daydream n` (for `n ≥ 1`, with standard uniform draws for the
initial sample) returns an `n × num_visible` matrix whose row 0 is the
raw unthresholded uniform draws (each in `[0, 1)`) and whose rows
`1 … n-1` contain only 0/1 entries, the bias column being stripped. -/
theorem daydream_spec (nv nh n : ℕ) (w : Mat) (u0 : ℕ → ℝ) (uh uv : ℕ → ℕ → ℝ)
    (hw : isRC w (nv + 1) (nh + 1)) (hn : 1 ≤ n)
    (hu0 : ∀ i, 0 ≤ u0 i ∧ u0 i < 1) :
    (RBM.daydream ⟨nv, nh, false, w⟩ n u0 uh uv).length = n ∧
    (∀ row ∈ RBM.daydream ⟨nv, nh, false, w⟩ n u0 uh uv, row.length = nv) ∧
    (∀ x ∈ (RBM.daydream ⟨nv, nh, false, w⟩ n u0 uh uv).headI, 0 ≤ x ∧ x < 1) ∧
    (∀ row ∈ (RBM.daydream ⟨nv, nh, false, w⟩ n u0 uh uv).tail,
      ∀ x ∈ row, x = 0 ∨ x = 1) := by
  rcases n with _ | k
  · exact absurd hn (by simp)
  have hchain := daydreamChain_facts hw uh uv k 1 (1 :: (List.range nv).map u0)
  have heq : RBM.daydream ⟨nv, nh, false, w⟩ (k + 1) u0 uh uv =
      (List.range nv).map u0 ::
        (daydreamChain w nv nh uh uv 1 k (1 :: (List.range nv).map u0)).map List.tail := by
    simp [RBM.daydream, daydreamFull]
  rw [heq]
  refine ⟨by simp [hchain.1], ?_, ?_, ?_⟩
  · intro row hrow
    rcases List.mem_cons.mp hrow with h | h
    · simp [h]
    · rcases List.mem_map.mp h with ⟨srow, hsrow, hmap⟩
      rw [← hmap, List.length_tail, (hchain.2 srow hsrow).1]
      omega
  · intro x hx
    rw [List.headI_cons] at hx
    rcases List.mem_map.mp hx with ⟨i, _, hi⟩
    rw [← hi]
    exact hu0 i
  · intro row hrow x hx
    rw [List.tail_cons] at hrow
    rcases List.mem_map.mp hrow with ⟨srow, hsrow, hmap⟩
    exact (hchain.2 srow hsrow).2 x (List.mem_of_mem_tail (hmap ▸ hx))

theorem daydream_witness :
    (RBM.daydream ⟨1, 1, false, [[0, 0], [0, 0]]⟩ 2 (fun _ => 1 / 2) (fun _ _ => 1 / 2)
      (fun _ _ => 1 / 2)).length = 2 ∧
    (∀ row ∈ RBM.daydream ⟨1, 1, false, [[0, 0], [0, 0]]⟩ 2 (fun _ => 1 / 2)
      (fun _ _ => 1 / 2) (fun _ _ => 1 / 2), row.length = 1) ∧
    (∀ x ∈ (RBM.daydream ⟨1, 1, false, [[0, 0], [0, 0]]⟩ 2 (fun _ => 1 / 2)
      (fun _ _ => 1 / 2) (fun _ _ => 1 / 2)).headI, 0 ≤ x ∧ x < 1) ∧
    (∀ row ∈ (RBM.daydream ⟨1, 1, false, [[0, 0], [0, 0]]⟩ 2 (fun _ => 1 / 2)
      (fun _ _ => 1 / 2) (fun _ _ => 1 / 2)).tail, ∀ x ∈ row, x = 0 ∨ x = 1) :=
  daydream_spec 1 1 2 [[0, 0], [0, 0]] (fun _ => 1 / 2) (fun _ _ => 1 / 2)
    (fun _ _ => 1 / 2) (by decide) (by decide) (fun i => by norm_num)

/-- C6: training with learning rate 0 (any epoch count, any sampling
draws) leaves the weight matrix exactly unchanged: every epoch update
is scaled by 0. -/
theorem train_zero_lr (nv nh n E : ℕ) (dbg : Bool) (w data : Mat)
    (us : ℕ → ℕ → ℕ → ℝ) (hd : isRC data n nv) (hn : 1 ≤ n)
    (hw : isRC w (nv + 1) (nh + 1)) :
    RBM.train ⟨nv, nh, dbg, w⟩ data E 0 us = (⟨nv, nh, dbg, w⟩, false) := by
  have h := @train_eq nv nh n E w data dbg 0 us hd hn hw
  rw [h.1, cdTrainSpec_zero (isRC_insertBias hd) hn us E 0 w hw]

theorem train_zero_lr_witness :
    RBM.train ⟨1, 1, false, [[0, 0], [0, 0]]⟩ [[1]] 3 0 (fun _ _ _ => 1 / 2) =
      (⟨1, 1, false, [[0, 0], [0, 0]]⟩, false) :=
  train_zero_lr 1 1 1 3 false [[0, 0], [0, 0]] [[1]] (fun _ _ _ => 1 / 2)
    (by decide) (by decide) (by decide)

/-- C7: a well-shaped `train` call completes without raising, modifies
no model field other than `weights`, preserves the weight matrix's
shape `(num_visible+1) × (num_hidden+1)`, and (being modelled as a
pure state transformer) touches only a bias-augmented copy of the
caller's data. -/
theorem train_frame (nv nh n E : ℕ) (dbg : Bool) (lr : ℝ) (w data : Mat)
    (us : ℕ → ℕ → ℕ → ℝ) (hd : isRC data n nv) (hn : 1 ≤ n)
    (hw : isRC w (nv + 1) (nh + 1)) :
    (RBM.train ⟨nv, nh, dbg, w⟩ data E lr us).1.num_visible = nv ∧
    (RBM.train ⟨nv, nh, dbg, w⟩ data E lr us).1.num_hidden = nh ∧
    (RBM.train ⟨nv, nh, dbg, w⟩ data E lr us).1.debug_print = dbg ∧
    isRC (RBM.train ⟨nv, nh, dbg, w⟩ data E lr us).1.weights (nv + 1) (nh + 1) ∧
    (RBM.train ⟨nv, nh, dbg, w⟩ data E lr us).2 = false := by
  have h := @train_eq nv nh n E w data dbg lr us hd hn hw
  rw [h.1]
  exact ⟨rfl, rfl, rfl, h.2, rfl⟩

theorem train_frame_witness :
    (RBM.train ⟨1, 1, false, [[0, 0], [0, 0]]⟩ [[1]] 2 1 (fun _ _ _ => 1 / 2)).1.num_visible = 1 ∧
    (RBM.train ⟨1, 1, false, [[0, 0], [0, 0]]⟩ [[1]] 2 1 (fun _ _ _ => 1 / 2)).1.num_hidden = 1 ∧
    (RBM.train ⟨1, 1, false, [[0, 0], [0, 0]]⟩ [[1]] 2 1 (fun _ _ _ => 1 / 2)).1.debug_print = false ∧
    isRC (RBM.train ⟨1, 1, false, [[0, 0], [0, 0]]⟩ [[1]] 2 1 (fun _ _ _ => 1 / 2)).1.weights
      (1 + 1) (1 + 1) ∧
    (RBM.train ⟨1, 1, false, [[0, 0], [0, 0]]⟩ [[1]] 2 1 (fun _ _ _ => 1 / 2)).2 = false :=
  train_frame 1 1 1 2 false 1 [[0, 0], [0, 0]] [[1]] (fun _ _ _ => 1 / 2)
    (by decide) (by decide) (by decide)

/-- C9: with no validation anywhere, a column-count mismatch makes the
underlying matrix product raise: `train` propagates the error out of
its first epoch with the weight matrix exactly unchanged (the failure
precedes the weight update), and `run_visible` / `run_hidden` likewise
fail on their single pass. -/
theorem shape_mismatch_errors (nv nh c E : ℕ) (dbg : Bool) (lr : ℝ) (w data : Mat)
    (us : ℕ → ℕ → ℕ → ℝ) (u : ℕ → ℕ → ℝ)
    (hw : isRC w (nv + 1) (nh + 1)) (hdata : ∀ row ∈ data, row.length = c)
    (hne : data ≠ []) (hE : 1 ≤ E) :
    (c ≠ nv →
      RBM.train ⟨nv, nh, dbg, w⟩ data E lr us = (⟨nv, nh, dbg, w⟩, true) ∧
      RBM.run_visible ⟨nv, nh, dbg, w⟩ data u = none) ∧
    (c ≠ nh → RBM.run_hidden ⟨nv, nh, dbg, w⟩ data u = none) := by
  obtain ⟨row0, rest, rfl⟩ := List.exists_cons_of_ne_nil hne
  have hrow0 : (1 :: row0) ∈ insertBias (row0 :: rest) := by simp [insertBias]
  have hlen : ((1 : ℝ) :: row0).length = c + 1 := by
    simp [hdata row0 (by simp)]
  constructor
  · intro hcv
    have hnone : matMul (insertBias (row0 :: rest)) w = none :=
      matMul_eq_none hrow0 (by rw [hlen, hw.1]; omega)
    have htr : trainEpoch w (insertBias (row0 :: rest)) (row0 :: rest).length
        lr (us 0) nh = none := by
      rw [trainEpoch, hnone]
      rfl
    constructor
    · rcases E with _ | k
      · exact absurd hE (by simp)
      · have hloop : trainLoop nh (insertBias (row0 :: rest)) (row0 :: rest).length
            lr us 0 (k + 1) w = (w, true) := by
          rw [trainLoop, htr]
        simp only [List.length_cons] at hloop
        simp [RBM.train, hloop]
    · simp [RBM.run_visible, hnone]
  · intro hch
    have hnoneT : matMul (insertBias (row0 :: rest)) (transposeM w) = none :=
      matMul_eq_none hrow0 (by
        rw [hlen, length_transposeM, cols_of_isRC hw (Nat.le_add_left 1 nv)]
        omega)
    simp [RBM.run_hidden, hnoneT]

theorem shape_mismatch_witness :
    RBM.train ⟨1, 1, false, [[0, 0], [0, 0]]⟩ [[0, 0]] 1 1 (fun _ _ _ => 1 / 2) =
      (⟨1, 1, false, [[0, 0], [0, 0]]⟩, true) ∧
    RBM.run_visible ⟨1, 1, false, [[0, 0], [0, 0]]⟩ [[0, 0]] (fun _ _ => 1 / 2) = none ∧
    RBM.run_hidden ⟨1, 1, false, [[0, 0], [0, 0]]⟩ [[0, 0]] (fun _ _ => 1 / 2) = none := by
  have h := shape_mismatch_errors 1 1 2 1 false 1 [[0, 0], [0, 0]] [[0, 0]]
    (fun _ _ _ => 1 / 2) (fun _ _ => 1 / 2) (by decide) (by decide)
    (by simp) (by decide)
  exact ⟨(h.1 (by decide)).1, (h.1 (by decide)).2, h.2 (by decide)⟩

/-- C5 fails on the code: in `daydream`, the visible bias entry of each
stored sample is the raw sampled value and is never re-clamped to 1.
Concretely, with all-zero weights (`nv = nh = 1`), three samples, and
every sampling draw equal to 9/10, row 1 of the internal `samples`
matrix — the very visible sample from which step `i = 2` computes its
hidden activations — has bias entry 0, not 1 (the draw 9/10 is at
least `logistic 0 = 1/2`, so the bias unit samples to 0). -/
theorem daydream_bias_not_clamped :
    ((daydreamFull [[0, 0], [0, 0]] 1 1 3 (fun _ => 1 / 2) (fun _ _ => 9 / 10)
      (fun _ _ => 9 / 10)).getD 1 []).headI = 0 := by
  have hsb : sampleBit ((2 : ℝ)⁻¹) (9 / 10) = 0 := by
    rw [sampleBit, if_neg]
    norm_num
  have hred : (daydreamFull [[0, 0], [0, 0]] 1 1 3 (fun _ => 1 / 2) (fun _ _ => 9 / 10)
        (fun _ _ => 9 / 10)).getD 1 [] =
      daydreamStep [[0, 0], [0, 0]] 1 1
        ((1 : ℝ) :: (List.range 1).map (fun _ => 1 / 2)) (fun _ => 9 / 10)
        (fun _ => 9 / 10) := rfl
  rw [hred]
  simp [daydreamStep, vecMat, transposeM, Mat.cols, dotRC, randVec, setHead,
    List.range_succ, logistic_zero, hsb]

theorem initWeights_spec_witness :
    isRC (initWeights 1 1 (fun _ _ => 1 / 2)) (1 + 1) (1 + 1) ∧
    (initWeights 1 1 (fun _ _ => 1 / 2)).headI = List.replicate (1 + 1) (0 : ℝ) ∧
    (∀ row ∈ initWeights 1 1 (fun _ _ => 1 / 2), row.headI = 0) ∧
    (initWeights 1 1 (fun _ _ => 1 / 2)).headI.headI = 0 ∧
    (∀ i < 1, ∀ j < 1,
      ((initWeights 1 1 (fun _ _ => 1 / 2)).getD (i + 1) []).getD (j + 1) 0 =
        uniformDraw (-(glorotBound 1 1)) (glorotBound 1 1) ((1 : ℝ) / 2)) ∧
    (∀ row ∈ (initWeights 1 1 (fun _ _ => 1 / 2)).tail, ∀ x ∈ row.tail,
      -(glorotBound 1 1) ≤ x ∧ x < glorotBound 1 1) :=
  initWeights_spec 1 1 (fun _ _ => 1 / 2) (by decide) (by decide)
    (fun i j => by norm_num)
